import Mathlib

/-!
# Verification of the Calamares timezone catalogue and global storage

Shallow embedding of the excerpt consisting of
`src/libcalamares/locale/TimeZone.h` and `src/libcalamares/GlobalStorage.h`.
The excerpt contains only the class declarations and their doc comments; the
member function bodies live outside the excerpt, so each operation below is
modelled from the specification's contract (and the header doc comments),
as indicated in the individual doc comments.

Conventions of the embedding:
* a `ZonesModel` catalogue is a `List TimeZoneData` in insertion order;
* `double` coordinates are modelled as exact rationals (each finite double
  is a rational); the great-circle distance itself is a real number computed
  with real trigonometric functions, as the specification's haversine
  formula dictates;
* Qt signal emission is modelled by returning the list (or count) of
  emissions alongside the new state.
-/

namespace CalamaresUtils
namespace Locale

/-- One row of the timezone catalogue (`TimeZoneData` in `TimeZone.h`):
region, zone key, country, and the anchor coordinate in signed degrees. -/
structure TimeZoneData where
  region : String
  zone : String
  country : String
  latitude : ℚ
  longitude : ℚ
deriving DecidableEq, Repr

namespace ZonesModel

/-- Modelled from the spec: `findExact(region, zone)` — exact, case-sensitive
string match on both fields over a linear scan of the catalogue, returning
an explicit absence (`none`, the header's `nullptr`) when no record matches.
This models `ZonesModel::find(const QString&, const QString&)`. -/
def findExact (cat : List TimeZoneData) (region zone : String) : Option TimeZoneData :=
  match cat with
  | [] => none
  | r :: rs => if r.region = region ∧ r.zone = zone then some r else findExact rs region zone

/-- The identity key of a record: the `(region, zone)` pair. -/
def key (r : TimeZoneData) : String × String :=
  (r.region, r.zone)

/-- A catalogue satisfies the uniqueness invariant when no two records share
the `(region, zone)` identity. -/
def keysUnique (cat : List TimeZoneData) : Prop :=
  (cat.map key).Nodup

instance (cat : List TimeZoneData) : Decidable (keysUnique cat) :=
  inferInstanceAs (Decidable ((cat.map key).Nodup))

/-- A record's coordinate is in the valid range: latitude in [-90, 90]
and longitude in [-180, 180]. -/
def coordinateInRange (r : TimeZoneData) : Prop :=
  -90 ≤ r.latitude ∧ r.latitude ≤ 90 ∧ -180 ≤ r.longitude ∧ r.longitude ≤ 180

instance (r : TimeZoneData) : Decidable (coordinateInRange r) :=
  inferInstanceAs (Decidable (_ ∧ _ ∧ _ ∧ _))

/-- Modelled from the spec: `build(records)` — the single validation point.
It fails (construction error, `none`; the diagnostic text of the original is
not modelled) when a `(region, zone)` key is duplicated or a coordinate is
out of range, and otherwise freezes the records, in input order, as the
catalogue. -/
def build (records : List TimeZoneData) : Option (List TimeZoneData) :=
  if keysUnique records ∧ ∀ r ∈ records, coordinateInRange r then some records else none

/-- Conversion of degrees to radians, used by the haversine formula. -/
noncomputable def degToRad (x : ℝ) : ℝ :=
  x * Real.pi / 180

/-- The fixed sphere radius of the spec's haversine distance (mean Earth
radius in kilometres); it cancels in comparisons but is included. -/
noncomputable def earthRadius : ℝ :=
  6371

/-- Modelled from the spec: the haversine great-circle distance on a sphere
between the query coordinate `(lat, lon)` and the record's anchor point. -/
noncomputable def haversine (lat lon : ℚ) (r : TimeZoneData) : ℝ :=
  let p1 := degToRad ((lat : ℝ))
  let p2 := degToRad ((r.latitude : ℝ))
  let dl := degToRad ((r.longitude : ℝ)) - degToRad ((lon : ℝ))
  let h := Real.sin ((p2 - p1) / 2) ^ 2 + Real.cos p1 * Real.cos p2 * Real.sin (dl / 2) ^ 2
  2 * earthRadius * Real.arcsin (Real.sqrt h)

/-- Modelled from the spec: the linear scan of `findNearest`, tracking the
best record seen so far and replacing it only on a strictly smaller
haversine distance, so that on an exact tie the earlier record wins. -/
noncomputable def findNearestFrom (lat lon : ℚ) : TimeZoneData → List TimeZoneData → TimeZoneData
  | best, [] => best
  | best, r :: rs =>
    if haversine lat lon r < haversine lat lon best then findNearestFrom lat lon r rs
    else findNearestFrom lat lon best rs

/-- Modelled from the spec: `findNearest(latitude, longitude)` — `none` on
an empty catalogue, otherwise the record minimizing the haversine distance
to the query point, first-encountered record winning ties.  This models
`ZonesModel::find(double, double)`. -/
noncomputable def findNearest (cat : List TimeZoneData) (lat lon : ℚ) : Option TimeZoneData :=
  match cat with
  | [] => none
  | r :: rs => some (findNearestFrom lat lon r rs)

/-- Modelled from the spec and the header doc ("Returns the nearest zone, or
New York"): the fixed, documented fallback record returned by `lookup` when
the catalogue is empty; coordinates are those of the spec's end-to-end
dataset entry for America/New_York. -/
def fallbackZone : TimeZoneData :=
  { region := "America", zone := "New_York", country := "US", latitude := 40.71, longitude := -74 }

/-- Modelled from the spec: `resolve`/`ZonesModel::lookup` — delegates to
`findNearest` and substitutes the fixed fallback record when the catalogue
is empty, so the caller always receives a usable record. -/
noncomputable def lookup (cat : List TimeZoneData) (lat lon : ℚ) : TimeZoneData :=
  match findNearest cat lat lon with
  | some r => r
  | none => fallbackZone

end ZonesModel

namespace RegionsModel

/-- Modelled from the spec: `regions(catalogue)` — one pass over the
catalogue, collecting each region the first time it is seen, preserving that
first-seen order and skipping later duplicates.  This models the row set of
`RegionsModel` in `TimeZone.h`. -/
def regions (cat : List TimeZoneData) : List String :=
  cat.foldl (fun acc r => if r.region ∈ acc then acc else acc ++ [r.region]) []

/-- The spec sentence read as a recursive reference function: the sequence
of distinct strings in first-occurrence order — each string, followed by the
first-seen sequence of the remainder with that string filtered out. -/
def firstSeenSpec : List String → List String
  | [] => []
  | s :: ss => s :: firstSeenSpec (ss.filter (fun t => t ≠ s))
termination_by l => l.length
decreasing_by
  simp only [List.length_cons]
  exact Nat.lt_succ_of_le (List.length_filter_le _ _)

end RegionsModel

namespace RegionalZonesModel

/-- Modelled from the spec: `RegionalZonesModel::filterAcceptsRow` — the
proxy accepts a source record exactly when its region equals the currently
selected region. -/
def filterAcceptsRow (region : String) (r : TimeZoneData) : Bool :=
  r.region == region

/-- Modelled from the spec: `visibleEntries()` — the catalogue entries
accepted by the filter, in catalogue order. -/
def visibleEntries (region : String) (cat : List TimeZoneData) : List TimeZoneData :=
  cat.filter (filterAcceptsRow region)

/-- State of a `RegionalZonesModel`: the source catalogue and the currently
selected region. -/
structure State where
  catalogue : List TimeZoneData
  region : String
deriving DecidableEq, Repr

/-- Modelled from the spec: `setRegion(newRegion)` — a no-op when the value
is unchanged; otherwise updates the region and fires `regionChanged` once.
The second component is the list of emitted `regionChanged` payloads. -/
def setRegion (m : State) (r : String) : State × List String :=
  if r = m.region then (m, []) else ({ m with region := r }, [r])

end RegionalZonesModel

end Locale
end CalamaresUtils

namespace Calamares

/-- A Qt `QVariant`: either the invalid `QVariant()` or a held value; the
payload type (string or integer here) is irrelevant to the storage
contract in `GlobalStorage.h`. -/
inductive QVariant where
  | invalid : QVariant
  | ofString : String → QVariant
  | ofInt : Int → QVariant
deriving DecidableEq, Repr

/-- Qt's validity test on a `QVariant`: the default-constructed `QVariant()`
is invalid and boolean-converts to `false`. -/
def QVariant.isValid : QVariant → Bool
  | .invalid => false
  | _ => true

/-- The `QVariantMap` behind `GlobalStorage`, modelled as an association
list of key/value pairs (at most one binding per key in any store built by
the operations below). -/
structure GlobalStorage where
  m : List (String × QVariant)
deriving DecidableEq, Repr

namespace GlobalStorage

/-- Replace the binding of `k` in an association list, or append it. -/
def setEntry (k : String) (v : QVariant) : List (String × QVariant) → List (String × QVariant)
  | [] => [(k, v)]
  | p :: ps => if p.1 = k then (k, v) :: ps else p :: setEntry k v ps

/-- Drop the first binding of `k` from an association list. -/
def removeEntry (k : String) : List (String × QVariant) → List (String × QVariant)
  | [] => []
  | p :: ps => if p.1 = k then ps else p :: removeEntry k ps

/-- Modelled from the header doc: `contains(key)` — does the store hold a
binding for the key (distinguishing an explicitly inserted invalid
`QVariant` from no binding at all). -/
def contains (gs : GlobalStorage) (k : String) : Bool :=
  (gs.m.lookup k).isSome

/-- Modelled from the header doc: `value(key)` — the stored value, or the
invalid `QVariant()` when the key is absent. -/
def value (gs : GlobalStorage) (k : String) : QVariant :=
  (gs.m.lookup k).getD QVariant.invalid

/-- Modelled from the header doc: `insert(key, value)` — overwrites any
existing binding and emits `changed()` regardless.  The second component is
the number of `changed()` emissions. -/
def insert (gs : GlobalStorage) (k : String) (v : QVariant) : GlobalStorage × Nat :=
  (⟨setEntry k v gs.m⟩, 1)

/-- Modelled from the header doc: `remove(key)` — removes the binding if
present, does nothing otherwise, emits `changed()` regardless, and returns
the number of keys remaining.  The components are the new store, the number
of `changed()` emissions, and the returned count. -/
def remove (gs : GlobalStorage) (k : String) : GlobalStorage × Nat × Int :=
  let gs2 : GlobalStorage := ⟨removeEntry k gs.m⟩
  (gs2, 1, (gs2.m.length : Int))

end GlobalStorage

end Calamares

namespace CalamaresUtils
namespace Locale

/-- First record of the spec's end-to-end example dataset. -/
def berlinRecord : TimeZoneData :=
  { region := "Europe", zone := "Berlin", country := "DE", latitude := 52.52, longitude := 13.40 }

/-- Second record of the spec's end-to-end example dataset. -/
def parisRecord : TimeZoneData :=
  { region := "Europe", zone := "Paris", country := "FR", latitude := 48.85, longitude := 2.35 }

/-- Third record of the spec's end-to-end example dataset. -/
def newYorkRecord : TimeZoneData :=
  { region := "America", zone := "New_York", country := "US", latitude := 40.71, longitude := -74 }

/-- The spec's end-to-end example catalogue, used to instantiate witnesses. -/
def exampleCatalogue : List TimeZoneData :=
  [berlinRecord, parisRecord, newYorkRecord]

/-- A record with an out-of-range latitude, used to instantiate the
construction-error witness. -/
def outOfRangeRecord : TimeZoneData :=
  { region := "Nowhere", zone := "Pole", country := "XX", latitude := 100, longitude := 0 }

end Locale
end CalamaresUtils

namespace CalamaresUtils
namespace Locale
namespace ZonesModel

theorem findExact_mem_of_eq_some (cat : List TimeZoneData) (region zone : String)
    (r : TimeZoneData) (h : findExact cat region zone = some r) :
    r ∈ cat ∧ r.region = region ∧ r.zone = zone := by
  induction cat with
  | nil => simp [findExact] at h
  | cons s rs ih =>
    by_cases hs : s.region = region ∧ s.zone = zone
    · simp only [findExact, if_pos hs, Option.some.injEq] at h
      exact ⟨by simp [← h], by rw [← h]; exact hs.1, by rw [← h]; exact hs.2⟩
    · simp only [findExact, if_neg hs] at h
      obtain ⟨hm, h1, h2⟩ := ih h
      exact ⟨List.mem_cons_of_mem _ hm, h1, h2⟩

theorem findExact_eq_none (cat : List TimeZoneData) (region zone : String)
    (h : ∀ r ∈ cat, ¬(r.region = region ∧ r.zone = zone)) :
    findExact cat region zone = none := by
  induction cat with
  | nil => rfl
  | cons s rs ih =>
    simp only [findExact, if_neg (h s (List.mem_cons_self s rs))]
    exact ih fun r hr => h r (List.mem_cons_of_mem _ hr)

theorem findExact_roundtrip (cat : List TimeZoneData) (hu : keysUnique cat)
    (r : TimeZoneData) (hr : r ∈ cat) :
    findExact cat r.region r.zone = some r := by
  induction cat with
  | nil => cases hr
  | cons s rs ih =>
    rcases List.mem_cons.mp hr with h | h
    · subst h
      simp [findExact]
    · have hu2 : keysUnique rs := (List.nodup_cons.mp hu).2
      have hne : ¬(s.region = r.region ∧ s.zone = r.zone) := by
        intro ⟨h1, h2⟩
        have hk : key s = key r := by simp [key, h1, h2]
        exact (List.nodup_cons.mp hu).1 (hk ▸ List.mem_map_of_mem key h)
      simp only [findExact, if_neg hne]
      exact ih hu2 h

/-- Claim C4: exact lookup round-trip — under the catalogue's uniqueness
invariant, `findExact(r.region, r.zone)` returns `r` itself for every
catalogue record `r`, and for every `(region, zone)` pair matched by no
record it returns the explicit absence `none` rather than failing. -/
theorem findExact_spec (cat : List TimeZoneData) (hu : keysUnique cat) :
    (∀ r ∈ cat, findExact cat r.region r.zone = some r) ∧
    (∀ region zone, (∀ r ∈ cat, ¬(r.region = region ∧ r.zone = zone)) →
      findExact cat region zone = none) :=
  ⟨fun r hr => findExact_roundtrip cat hu r hr,
   fun region zone h => findExact_eq_none cat region zone h⟩

/-- Witness for C4, at the spec's example catalogue: the round-trip lookup
of the Paris record succeeds and an absent pair yields `none`. -/
theorem findExact_spec_witness :
    findExact exampleCatalogue parisRecord.region parisRecord.zone = some parisRecord ∧
    findExact exampleCatalogue "Europe" "Moscow" = none :=
  ⟨(findExact_spec exampleCatalogue (by decide)).1 parisRecord (by simp [exampleCatalogue]),
   (findExact_spec exampleCatalogue (by decide)).2 "Europe" "Moscow" (by decide)⟩

end ZonesModel

namespace RegionsModel

theorem firstSeenSpec_nil : firstSeenSpec [] = [] := by
  simp [firstSeenSpec]

theorem firstSeenSpec_cons (s : String) (ss : List String) :
    firstSeenSpec (s :: ss) = s :: firstSeenSpec (ss.filter (fun t => t ≠ s)) := by
  rw [firstSeenSpec]

theorem firstSeenSpec_nodup_mem (n : Nat) :
    ∀ l : List String, l.length ≤ n →
      (firstSeenSpec l).Nodup ∧ ∀ t, t ∈ firstSeenSpec l ↔ t ∈ l := by
  induction n with
  | zero =>
    intro l hl
    have hnil : l = [] := List.length_eq_zero.mp (Nat.le_zero.mp hl)
    subst hnil
    simp [firstSeenSpec_nil]
  | succ n ih =>
    intro l hl
    match l with
    | [] => simp [firstSeenSpec_nil]
    | s :: ss =>
      have hlen : (ss.filter (fun t => t ≠ s)).length ≤ n :=
        le_trans (List.length_filter_le _ _) (Nat.succ_le_succ_iff.mp hl)
      obtain ⟨hnd, hmem⟩ := ih _ hlen
      rw [firstSeenSpec_cons]
      refine ⟨List.nodup_cons.mpr ⟨?_, hnd⟩, ?_⟩
      · intro hs
        have hx := (hmem s).mp hs
        simp [List.mem_filter] at hx
      · intro t
        rw [List.mem_cons, hmem t, List.mem_filter, List.mem_cons]
        constructor
        · rintro (h | ⟨h1, h2⟩)
          · exact Or.inl h
          · exact Or.inr h1
        · intro h
          by_cases ht : t = s
          · exact Or.inl ht
          · rcases h with h | h
            · exact Or.inl h
            · exact Or.inr ⟨h, by simpa using ht⟩

theorem filter_notMem_append (ss acc : List String) (s : String) :
    ss.filter (fun t => t ∉ acc ++ [s]) =
      (ss.filter (fun t => t ∉ acc)).filter (fun t => t ≠ s) := by
  rw [List.filter_filter]
  apply List.filter_congr
  intro t _
  by_cases h1 : t ∈ acc <;> by_cases h2 : t = s <;> simp [h1, h2]

theorem foldl_regions_eq (l : List String) :
    ∀ acc : List String,
      l.foldl (fun acc s => if s ∈ acc then acc else acc ++ [s]) acc =
        acc ++ firstSeenSpec (l.filter (fun s => s ∉ acc)) := by
  induction l with
  | nil => intro acc; simp [firstSeenSpec_nil]
  | cons s ss ih =>
    intro acc
    rw [List.foldl_cons, List.filter_cons]
    by_cases hs : s ∈ acc
    · have hd : (decide (s ∉ acc)) = false := by simp [hs]
      rw [if_pos hs, hd, if_neg Bool.false_ne_true]
      exact ih acc
    · have hd : (decide (s ∉ acc)) = true := by simp [hs]
      rw [if_neg hs, hd, if_pos rfl]
      rw [ih (acc ++ [s]), firstSeenSpec_cons, filter_notMem_append ss acc s,
        List.append_assoc, List.singleton_append]

theorem regions_eq_firstSeenSpec (cat : List TimeZoneData) :
    regions cat = firstSeenSpec (cat.map fun r => r.region) := by
  have hmap := List.foldl_map (fun r : TimeZoneData => r.region)
    (fun acc s => if s ∈ acc then acc else acc ++ [s]) cat ([] : List String)
  unfold regions
  rw [← hmap, foldl_regions_eq]
  have hfilter : ((cat.map fun r => r.region).filter fun s => s ∉ ([] : List String)) =
      cat.map fun r => r.region := by
    rw [List.filter_eq_self]
    intro a _
    simp
  rw [hfilter, List.nil_append]

/-- Claim C5: the region enumeration is the sequence of distinct region
strings of the catalogue in first-occurrence order over the catalogue's
iteration order — it equals the recursive first-seen reference sequence,
holds no duplicates, and contains exactly the regions of the catalogue. -/
theorem regions_spec (cat : List TimeZoneData) :
    regions cat = firstSeenSpec (cat.map fun r => r.region) ∧
    (regions cat).Nodup ∧
    (∀ s, s ∈ regions cat ↔ ∃ r ∈ cat, r.region = s) := by
  have h1 := regions_eq_firstSeenSpec cat
  obtain ⟨hnd, hmem⟩ := firstSeenSpec_nodup_mem (cat.map fun r => r.region).length
    (cat.map fun r => r.region) le_rfl
  refine ⟨h1, h1 ▸ hnd, fun s => ?_⟩
  rw [h1, hmem s, List.mem_map]

end RegionsModel

namespace RegionalZonesModel

theorem mem_visibleEntries (region : String) (cat : List TimeZoneData) (r : TimeZoneData) :
    r ∈ visibleEntries region cat ↔ r ∈ cat ∧ r.region = region := by
  simp [visibleEntries, List.mem_filter, filterAcceptsRow]

/-- Claim C6: the proxy's visible sequence is exactly the subsequence of the
catalogue consisting of the entries whose region equals the current region,
in catalogue order — it is a sublist of the catalogue, its members are
precisely the matching ones with their full multiplicity, and when nothing
matches it is the empty sequence rather than an error. -/
theorem visibleEntries_spec (region : String) (cat : List TimeZoneData) :
    (visibleEntries region cat).Sublist cat ∧
    (∀ r, r ∈ visibleEntries region cat ↔ r ∈ cat ∧ r.region = region) ∧
    (∀ r, (visibleEntries region cat).count r =
      if r.region = region then cat.count r else 0) ∧
    ((∀ r ∈ cat, r.region ≠ region) → visibleEntries region cat = []) := by
  refine ⟨List.filter_sublist cat, mem_visibleEntries region cat, fun r => ?_, fun h => ?_⟩
  · by_cases hr : r.region = region
    · rw [if_pos hr]
      exact List.count_filter (by simp [filterAcceptsRow, hr])
    · rw [if_neg hr]
      refine List.count_eq_zero.mpr fun hm => ?_
      exact hr ((mem_visibleEntries region cat r).mp hm).2
  · refine List.filter_eq_nil_iff.mpr fun r hr => ?_
    simp [filterAcceptsRow, h r hr]

/-- Witness for C6 at the spec's example catalogue: the Berlin record is
visible under region Europe, and no entry is visible under a region that
matches nothing. -/
theorem visibleEntries_spec_witness :
    (berlinRecord ∈ visibleEntries "Europe" exampleCatalogue ↔
      berlinRecord ∈ exampleCatalogue ∧ berlinRecord.region = "Europe") ∧
    visibleEntries "Asia" exampleCatalogue = [] :=
  ⟨(visibleEntries_spec "Europe" exampleCatalogue).2.1 berlinRecord,
   (visibleEntries_spec "Asia" exampleCatalogue).2.2.2 (by
    intro r hr
    fin_cases hr <;> decide)⟩

/-- Claim C7: `setRegion` fires `regionChanged` exactly when the new value
differs from the current region; a same-value call returns the state
unchanged (hence an unchanged visible sequence) with no emission, and a
different value updates the region, keeps the catalogue, and fires exactly
one notification. -/
theorem setRegion_spec (m : State) (r : String) :
    ((setRegion m r).2 ≠ [] ↔ r ≠ m.region) ∧
    (r = m.region → setRegion m r = (m, []) ∧
      visibleEntries (setRegion m r).1.region (setRegion m r).1.catalogue =
        visibleEntries m.region m.catalogue) ∧
    (r ≠ m.region → (setRegion m r).1.region = r ∧
      (setRegion m r).1.catalogue = m.catalogue ∧
      (setRegion m r).2 = [r] ∧ (setRegion m r).2.length = 1) := by
  by_cases hr : r = m.region
  · simp [setRegion, hr]
  · simp [setRegion, hr]

/-- Witness for C7: on a concrete state, a same-region call is a silent
no-op and a different-region call emits a single `regionChanged`. -/
theorem setRegion_spec_witness :
    setRegion ⟨[], "Europe"⟩ "Europe" = (⟨[], "Europe"⟩, []) ∧
    (setRegion ⟨[], "Europe"⟩ "America").2 = ["America"] :=
  ⟨((setRegion_spec ⟨[], "Europe"⟩ "Europe").2.1 rfl).1,
   ((setRegion_spec ⟨[], "Europe"⟩ "America").2.2 (by decide)).2.2.1⟩

end RegionalZonesModel

namespace ZonesModel

/-- Claim C8: catalogue construction fails with a construction error
whenever the input duplicates a `(region, zone)` key or contains an
out-of-range coordinate; on success the catalogue is the input sequence and
the key-uniqueness invariant (and coordinate range) holds throughout. -/
theorem build_spec (records : List TimeZoneData) :
    (¬keysUnique records → build records = none) ∧
    ((∃ r ∈ records, ¬coordinateInRange r) → build records = none) ∧
    (∀ cat, build records = some cat →
      cat = records ∧ keysUnique cat ∧ ∀ r ∈ cat, coordinateInRange r) := by
  unfold build
  by_cases h : keysUnique records ∧ ∀ r ∈ records, coordinateInRange r
  · rw [if_pos h]
    refine ⟨fun hn => absurd h.1 hn, fun ⟨r, hr, hc⟩ => absurd (h.2 r hr) hc, ?_⟩
    intro cat hcat
    cases hcat
    exact ⟨rfl, h.1, h.2⟩
  · rw [if_neg h]
    exact ⟨fun _ => rfl, fun _ => rfl, fun cat hcat => by cases hcat⟩

/-- Witness for C8: a duplicated key and an out-of-range latitude each
abort construction. -/
theorem build_spec_witness :
    build [berlinRecord, berlinRecord] = none ∧ build [outOfRangeRecord] = none :=
  ⟨(build_spec [berlinRecord, berlinRecord]).1 (by decide),
   (build_spec [outOfRangeRecord]).2.1 ⟨outOfRangeRecord, by simp, by decide⟩⟩

theorem findNearestFrom_nil (lat lon : ℚ) (best : TimeZoneData) :
    findNearestFrom lat lon best [] = best :=
  rfl

theorem findNearestFrom_cons (lat lon : ℚ) (best r : TimeZoneData) (rs : List TimeZoneData) :
    findNearestFrom lat lon best (r :: rs) =
      if haversine lat lon r < haversine lat lon best then findNearestFrom lat lon r rs
      else findNearestFrom lat lon best rs :=
  rfl

theorem findNearest_nil (lat lon : ℚ) : findNearest [] lat lon = none :=
  rfl

theorem findNearest_cons (lat lon : ℚ) (b : TimeZoneData) (bs : List TimeZoneData) :
    findNearest (b :: bs) lat lon = some (findNearestFrom lat lon b bs) :=
  rfl

theorem findNearestFrom_mem_min (lat lon : ℚ) (rest : List TimeZoneData) :
    ∀ best, findNearestFrom lat lon best rest ∈ best :: rest ∧
      ∀ x ∈ best :: rest,
        haversine lat lon (findNearestFrom lat lon best rest) ≤ haversine lat lon x := by
  induction rest with
  | nil =>
    intro best
    rw [findNearestFrom_nil]
    refine ⟨List.mem_cons_self best [], ?_⟩
    intro x hx
    rcases List.mem_cons.mp hx with h | h
    · subst h; exact le_refl _
    · cases h
  | cons r rs ih =>
    intro best
    rw [findNearestFrom_cons]
    by_cases hlt : haversine lat lon r < haversine lat lon best
    · rw [if_pos hlt]
      obtain ⟨hmem, hmin⟩ := ih r
      refine ⟨List.mem_cons_of_mem best hmem, ?_⟩
      intro x hx
      rcases List.mem_cons.mp hx with h | h
      · subst h
        exact le_of_lt (lt_of_le_of_lt (hmin r (List.mem_cons_self r rs)) hlt)
      · exact hmin x h
    · rw [if_neg hlt]
      push_neg at hlt
      obtain ⟨hmem, hmin⟩ := ih best
      constructor
      · rcases List.mem_cons.mp hmem with h | h
        · rw [h]; exact List.mem_cons_self _ _
        · exact List.mem_cons_of_mem best (List.mem_cons_of_mem r h)
      · intro x hx
        rcases List.mem_cons.mp hx with h | h
        · rw [h]; exact hmin best (List.mem_cons_self best rs)
        · rcases List.mem_cons.mp h with h2 | h2
          · rw [h2]; exact le_trans (hmin best (List.mem_cons_self best rs)) hlt
          · exact hmin x (List.mem_cons_of_mem best h2)

theorem findNearestFrom_first (lat lon : ℚ) (rest : List TimeZoneData) :
    ∀ best, ∃ l1 l2,
      best :: rest = l1 ++ findNearestFrom lat lon best rest :: l2 ∧
      (∀ x ∈ l1, haversine lat lon (findNearestFrom lat lon best rest) < haversine lat lon x) ∧
      (∀ x ∈ l2, haversine lat lon (findNearestFrom lat lon best rest) ≤ haversine lat lon x) := by
  induction rest with
  | nil =>
    intro best
    exact ⟨[], [], by rw [findNearestFrom_nil]; rfl, by simp, by simp⟩
  | cons r rs ih =>
    intro best
    rw [findNearestFrom_cons]
    by_cases hlt : haversine lat lon r < haversine lat lon best
    · rw [if_pos hlt]
      obtain ⟨l1, l2, heq, h1, h2⟩ := ih r
      refine ⟨best :: l1, l2, ?_, ?_, h2⟩
      · rw [List.cons_append, ← heq]
      · intro x hx
        rcases List.mem_cons.mp hx with hxb | hxl
        · subst hxb
          exact lt_of_le_of_lt
            ((findNearestFrom_mem_min lat lon rs r).2 r (List.mem_cons_self r rs)) hlt
        · exact h1 x hxl
    · rw [if_neg hlt]
      push_neg at hlt
      obtain ⟨l1, l2, heq, h1, h2⟩ := ih best
      cases l1 with
      | nil =>
        rw [List.nil_append] at heq
        injection heq with hres hl2
        refine ⟨[], r :: l2, ?_, by simp, ?_⟩
        · rw [List.nil_append, ← hres, ← hl2]
        · intro x hx
          rcases List.mem_cons.mp hx with hxr | hxl
          · subst hxr; rw [← hres]; exact hlt
          · exact h2 x hxl
      | cons b l1t =>
        rw [List.cons_append] at heq
        injection heq with hb hrs
        have hrb : haversine lat lon (findNearestFrom lat lon best rs) < haversine lat lon best := by
          have hx := h1 b (List.mem_cons_self b l1t)
          rw [← hb] at hx
          exact hx
        refine ⟨best :: r :: l1t, l2, ?_, ?_, h2⟩
        · rw [List.cons_append, List.cons_append, ← hrs]
        · intro x hx
          rcases List.mem_cons.mp hx with hxb | hx2
          · rw [hxb]; exact hrb
          · rcases List.mem_cons.mp hx2 with hxr | hxl
            · rw [hxr]; exact lt_of_lt_of_le hrb hlt
            · exact h1 x (List.mem_cons_of_mem b hxl)

/-- Claim C2: `findNearest` returns `none` exactly when the catalogue is
empty; on any non-empty catalogue it returns exactly one record — a
catalogue member minimizing the haversine great-circle distance to the
query point. -/
theorem findNearest_spec (cat : List TimeZoneData) (lat lon : ℚ) :
    (findNearest cat lat lon = none ↔ cat = []) ∧
    ∀ r, findNearest cat lat lon = some r →
      r ∈ cat ∧ ∀ s ∈ cat, haversine lat lon r ≤ haversine lat lon s := by
  match cat with
  | [] =>
    refine ⟨by simp [findNearest_nil], fun r hr => ?_⟩
    rw [findNearest_nil] at hr
    cases hr
  | b :: bs =>
    constructor
    · rw [findNearest_cons]
      simp
    · intro r hr
      rw [findNearest_cons, Option.some.injEq] at hr
      obtain ⟨hmem, hmin⟩ := findNearestFrom_mem_min lat lon bs b
      rw [hr] at hmem hmin
      exact ⟨hmem, hmin⟩

/-- Witness for C2: the none-iff-empty equivalence instantiated at the
empty catalogue and at the spec's three-record example catalogue. -/
theorem findNearest_spec_witness :
    (findNearest [] 0 0 = none ↔ ([] : List TimeZoneData) = []) ∧
    (findNearest exampleCatalogue 0 0 = none ↔ exampleCatalogue = []) :=
  ⟨(findNearest_spec [] 0 0).1, (findNearest_spec exampleCatalogue 0 0).1⟩

/-- Claim C3: deterministic tie-break — for every non-empty catalogue and
query, the record returned by `findNearest` splits the catalogue with every
earlier record at strictly greater haversine distance and every later
record no closer; hence among exactly equidistant records the one with the
smallest catalogue index is returned, and the result is a pure function of
the catalogue and the query. -/
theorem findNearest_first_minimizer (cat : List TimeZoneData) (lat lon : ℚ)
    (h : cat ≠ []) :
    ∃ r l1 l2, findNearest cat lat lon = some r ∧
      cat = l1 ++ r :: l2 ∧
      (∀ x ∈ l1, haversine lat lon r < haversine lat lon x) ∧
      (∀ x ∈ l2, haversine lat lon r ≤ haversine lat lon x) := by
  match cat, h with
  | b :: bs, _ =>
    obtain ⟨l1, l2, heq, h1, h2⟩ := findNearestFrom_first lat lon bs b
    exact ⟨findNearestFrom lat lon b bs, l1, l2, findNearest_cons lat lon b bs, heq, h1, h2⟩

/-- Witness for C3 at the spec's example catalogue and the origin query. -/
theorem findNearest_first_minimizer_witness :
    ∃ r l1 l2, findNearest exampleCatalogue 0 0 = some r ∧
      exampleCatalogue = l1 ++ r :: l2 ∧
      (∀ x ∈ l1, haversine 0 0 r < haversine 0 0 x) ∧
      (∀ x ∈ l2, haversine 0 0 r ≤ haversine 0 0 x) :=
  findNearest_first_minimizer exampleCatalogue 0 0 (by simp [exampleCatalogue])

/-- Claim C1: the resolver `lookup` always returns a usable record — the
fixed, documented America/New_York fallback on the empty catalogue, and on
a non-empty catalogue the nearest record delivered by `findNearest`. -/
theorem lookup_spec (cat : List TimeZoneData) (lat lon : ℚ) :
    (cat = [] → lookup cat lat lon = fallbackZone) ∧
    (∀ r, findNearest cat lat lon = some r → lookup cat lat lon = r) ∧
    (cat ≠ [] → ∃ r, lookup cat lat lon = r ∧ r ∈ cat ∧
      ∀ s ∈ cat, haversine lat lon r ≤ haversine lat lon s) ∧
    fallbackZone.region = "America" ∧ fallbackZone.zone = "New_York" := by
  match cat with
  | [] =>
    refine ⟨fun _ => rfl, fun r hr => ?_, fun hne => absurd rfl hne, rfl, rfl⟩
    rw [findNearest_nil] at hr
    cases hr
  | b :: bs =>
    refine ⟨fun he => absurd he (List.cons_ne_nil b bs), fun r hr => ?_, fun _ => ?_, rfl, rfl⟩
    · rw [findNearest_cons, Option.some.injEq] at hr
      rw [← hr]
      rfl
    · obtain ⟨hmem, hmin⟩ := findNearestFrom_mem_min lat lon bs b
      exact ⟨findNearestFrom lat lon b bs, rfl, hmem, hmin⟩

/-- Witness for C1: the empty catalogue resolves to the fallback record and
the example catalogue resolves to a nearest member. -/
theorem lookup_spec_witness :
    lookup [] 0 0 = fallbackZone ∧
    (∃ r, lookup exampleCatalogue 0 0 = r ∧ r ∈ exampleCatalogue ∧
      ∀ s ∈ exampleCatalogue, haversine 0 0 r ≤ haversine 0 0 s) :=
  ⟨(lookup_spec [] 0 0).1 rfl,
   (lookup_spec exampleCatalogue 0 0).2.2.1 (by simp [exampleCatalogue])⟩

end ZonesModel
end Locale
end CalamaresUtils

namespace Calamares
namespace GlobalStorage

theorem lookup_setEntry (k : String) (v : QVariant) :
    ∀ m : List (String × QVariant), (setEntry k v m).lookup k = some v := by
  intro m
  induction m with
  | nil => simp [setEntry, List.lookup]
  | cons p ps ih =>
    obtain ⟨pk, pv⟩ := p
    by_cases hp : pk = k
    · simp [setEntry, hp, List.lookup]
    · have hb : (k == pk) = false := beq_eq_false_iff_ne.mpr fun he => hp he.symm
      simp only [setEntry, hp, ite_false, List.lookup]
      rw [hb]
      exact ih

theorem removeEntry_of_lookup_none (k : String) :
    ∀ m : List (String × QVariant), m.lookup k = none → removeEntry k m = m := by
  intro m
  induction m with
  | nil => intro _; rfl
  | cons p ps ih =>
    obtain ⟨pk, pv⟩ := p
    intro hm
    by_cases hp : pk = k
    · have hb : (k == pk) = true := beq_iff_eq.mpr hp.symm
      rw [List.lookup, hb] at hm
      simp at hm
    · have hb : (k == pk) = false := beq_eq_false_iff_ne.mpr fun he => hp he.symm
      rw [List.lookup, hb] at hm
      simp only [removeEntry, hp, ite_false]
      rw [ih hm]

theorem lookup_eq_none_of_contains_false (gs : GlobalStorage) (k : String)
    (h : gs.contains k = false) : gs.m.lookup k = none := by
  unfold contains at h
  cases hm : gs.m.lookup k with
  | none => rfl
  | some v => rw [hm] at h; simp at h

/-- Claim C9: on the shared key-value store, `insert` makes `value` return
the inserted value (overwriting any existing binding), `remove` of an
absent key leaves the store unchanged, and every `insert` and every
`remove` emits exactly one `changed()` notification, even when nothing
actually changed. -/
theorem insert_remove_spec (gs : GlobalStorage) (k : String) (v : QVariant) :
    ((gs.insert k v).1.value k = v) ∧
    ((gs.insert k v).2 = 1) ∧
    (gs.contains k = false → (gs.remove k).1 = gs) ∧
    ((gs.remove k).2.1 = 1) := by
  refine ⟨?_, rfl, fun h => ?_, rfl⟩
  · unfold insert value
    rw [lookup_setEntry k v gs.m]
    rfl
  · unfold remove
    have hn := lookup_eq_none_of_contains_false gs k h
    simp only
    rw [removeEntry_of_lookup_none k gs.m hn]

/-- Witness for C9: on the empty store, an inserted value is read back and
removal of the absent key is a no-op on the contents. -/
theorem insert_remove_spec_witness :
    ((⟨[]⟩ : GlobalStorage).insert "zone" (QVariant.ofString "Europe/Paris")).1.value "zone" =
      QVariant.ofString "Europe/Paris" ∧
    ((⟨[]⟩ : GlobalStorage).remove "zone").1 = (⟨[]⟩ : GlobalStorage) :=
  ⟨(insert_remove_spec ⟨[]⟩ "zone" (QVariant.ofString "Europe/Paris")).1,
   (insert_remove_spec ⟨[]⟩ "zone" QVariant.invalid).2.2.1 (by decide)⟩

/-- Claim C10: for a key absent from the store, `value` returns the invalid
`QVariant()` (boolean-converting to false), which is exactly what `value`
also returns after explicitly inserting `QVariant()` under that key, while
`contains` distinguishes the two situations: false for the absent key and
true after the explicit insertion. -/
theorem value_contains_spec (gs : GlobalStorage) (k : String)
    (h : gs.contains k = false) :
    gs.value k = QVariant.invalid ∧
    (gs.value k).isValid = false ∧
    (gs.insert k QVariant.invalid).1.value k = gs.value k ∧
    (gs.insert k QVariant.invalid).1.contains k = true ∧
    gs.contains k = false := by
  have hn := lookup_eq_none_of_contains_false gs k h
  have hv : gs.value k = QVariant.invalid := by unfold value; rw [hn]; rfl
  refine ⟨hv, by rw [hv]; rfl, ?_, ?_, h⟩
  · unfold insert value
    rw [lookup_setEntry k QVariant.invalid gs.m, hn]
    rfl
  · unfold insert contains
    rw [lookup_setEntry k QVariant.invalid gs.m]
    rfl

/-- Witness for C10 on the empty store and a concrete key. -/
theorem value_contains_spec_witness :
    (⟨[]⟩ : GlobalStorage).value "zone" = QVariant.invalid ∧
    ((⟨[]⟩ : GlobalStorage).value "zone").isValid = false ∧
    ((⟨[]⟩ : GlobalStorage).insert "zone" QVariant.invalid).1.value "zone" =
      (⟨[]⟩ : GlobalStorage).value "zone" ∧
    ((⟨[]⟩ : GlobalStorage).insert "zone" QVariant.invalid).1.contains "zone" = true ∧
    (⟨[]⟩ : GlobalStorage).contains "zone" = false :=
  value_contains_spec ⟨[]⟩ "zone" (by decide)

end GlobalStorage
end Calamares
